import Mathlib

/-!
Verification of the pizza-api repository (`main.py`, `backfill.py`).

The Python source is shallowly embedded:
* Python floats are modelled by exact rationals (`ℚ`); `round(x, n)` is
  modelled by round-half-to-even on rationals (`pyRound`), matching the
  documented semantics of Python's built-in `round`.
* Timezone-aware UTC `datetime` instants are modelled as integer microsecond
  counts (`ℤ`); `dt.replace(second=0, microsecond=0)` and friends become
  flooring to the bucket size, which is proved equivalent to zeroing the
  finer calendar fields.
* Python `dict`s (used in insertion order) are modelled as association lists.
-/

namespace PizzaApi

/-- Round-half-to-even of a rational to an integer, the rounding mode of
Python's built-in `round`. -/
def rhe (q : ℚ) : ℤ :=
  if q - ⌊q⌋ < 1/2 then ⌊q⌋
  else if 1/2 < q - ⌊q⌋ then ⌊q⌋ + 1
  else if ⌊q⌋ % 2 = 0 then ⌊q⌋ else ⌊q⌋ + 1

/-- Model of Python `round(q, d)`: round to `d` decimal digits,
half-to-even. -/
def pyRound (d : ℕ) (q : ℚ) : ℚ := (rhe (q * 10 ^ d) : ℚ) / 10 ^ d

theorem rhe_ge_floor (q : ℚ) : ⌊q⌋ ≤ rhe q := by
  unfold rhe; split_ifs <;> omega

theorem rhe_le_floor_add_one (q : ℚ) : rhe q ≤ ⌊q⌋ + 1 := by
  unfold rhe; split_ifs <;> omega

theorem rhe_mono {a b : ℚ} (h : a ≤ b) : rhe a ≤ rhe b := by
  have hf : ⌊a⌋ ≤ ⌊b⌋ := Int.floor_le_floor h
  rcases eq_or_lt_of_le hf with heq | hlt
  · have hfr : a - (⌊a⌋ : ℚ) ≤ b - (⌊b⌋ : ℚ) := by
      rw [heq]; linarith
    unfold rhe
    split_ifs <;> first | omega | (exfalso; rw [heq] at * ; linarith)
  · calc rhe a ≤ ⌊a⌋ + 1 := rhe_le_floor_add_one a
    _ ≤ ⌊b⌋ := hlt
    _ ≤ rhe b := rhe_ge_floor b

theorem pyRound_mono (d : ℕ) {a b : ℚ} (h : a ≤ b) : pyRound d a ≤ pyRound d b := by
  unfold pyRound
  have h10 : (0 : ℚ) < 10 ^ d := by positivity
  have := rhe_mono (mul_le_mul_of_nonneg_right h (le_of_lt h10))
  exact (div_le_div_iff_of_pos_right h10).2 (by exact_mod_cast this)

/-- The index calculator of `main.py` (`calculate_pizza_index` line 269,
`get_pizza_index_chart_data` lines 517-519, response rounding at line 363):
`index_value = 100 + avg_popularity * 0.8`, reported rounded to one decimal
place. -/
def indexValue (avgPopularity : ℚ) : ℚ := pyRound 1 (100 + avgPopularity * 0.8)

/-- C1: for every average popularity `a`, the index value is
`100 + a * 0.8` rounded to one decimal place; `indexValue 0 = 100.0`,
`indexValue 100 = 180.0`, and `indexValue` is monotonically non-decreasing. -/
theorem c1_index_affine_monotone :
    indexValue 0 = 100 ∧ indexValue 100 = 180 ∧
    (∀ a : ℚ, indexValue a = pyRound 1 (100 + a * 0.8)) ∧
    (∀ a b : ℚ, a ≤ b → indexValue a ≤ indexValue b) := by
  refine ⟨?_, ?_, fun a => rfl, fun a b h => pyRound_mono 1 (by linarith)⟩
  · norm_num [indexValue, pyRound, rhe]
  · norm_num [indexValue, pyRound, rhe]

/-- Witness for C1 at concrete inputs 0 and 50. -/
theorem c1_index_affine_monotone_witness :
    (0 : ℚ) ≤ 50 ∧ indexValue 0 ≤ indexValue 50 :=
  ⟨by norm_num, c1_index_affine_monotone.2.2.2 0 50 (by norm_num)⟩

/-- The three bucket granularities accepted by the aggregation code. -/
inductive Interval where
  | minute
  | hour
  | day
deriving DecidableEq, Repr

/-- Microseconds per minute. -/
def usPerMinute : ℤ := 60000000

/-- Microseconds per hour. -/
def usPerHour : ℤ := 3600000000

/-- Microseconds per day. -/
def usPerDay : ℤ := 86400000000

/-- Width of a bucket, in microseconds. -/
def bucketSize : Interval → ℤ
  | .minute => usPerMinute
  | .hour => usPerHour
  | .day => usPerDay

/-- Bucket start for an instant `t` (microseconds since epoch, UTC): the
model of `timestamp.replace(second=0, microsecond=0)` (minute),
`timestamp.replace(minute=0, second=0, microsecond=0)` (hour) and
`timestamp.replace(hour=0, minute=0, second=0, microsecond=0)` (day) on a
timezone-aware UTC datetime. -/
def bucketFloor (g : Interval) (t : ℤ) : ℤ := t - t % bucketSize g

/-- Calendar-field decomposition of a UTC instant: whole days, and the
hour / minute / second / microsecond fields of a `datetime`. -/
structure Parts where
  day : ℤ
  hour : ℤ
  minute : ℤ
  second : ℤ
  micro : ℤ
deriving DecidableEq, Repr

/-- Decompose an instant into its calendar fields. -/
def toParts (t : ℤ) : Parts :=
  { day := t / usPerDay
    hour := t % usPerDay / usPerHour
    minute := t % usPerDay % usPerHour / usPerMinute
    second := t % usPerDay % usPerHour % usPerMinute / 1000000
    micro := t % usPerDay % usPerHour % usPerMinute % 1000000 }

/-- Recompose an instant from calendar fields. -/
def ofParts (p : Parts) : ℤ :=
  p.day * usPerDay + p.hour * usPerHour + p.minute * usPerMinute +
    p.second * 1000000 + p.micro

/-- Zero every calendar field finer than the granularity, exactly as the
`replace(...=0)` calls do. -/
def zeroFine : Interval → Parts → Parts
  | .minute, p => { p with second := 0, micro := 0 }
  | .hour, p => { p with minute := 0, second := 0, micro := 0 }
  | .day, p => { p with hour := 0, minute := 0, second := 0, micro := 0 }

theorem bucketFloor_eq_zeroFine (g : Interval) (t : ℤ) :
    bucketFloor g t = ofParts (zeroFine g (toParts t)) := by
  cases g <;>
    simp only [bucketFloor, bucketSize, usPerMinute, usPerHour, usPerDay,
      zeroFine, toParts, ofParts] <;>
    omega

theorem bucketFloor_idem (g : Interval) (t : ℤ) :
    bucketFloor g (bucketFloor g t) = bucketFloor g t := by
  cases g <;>
    simp only [bucketFloor, bucketSize, usPerMinute, usPerHour, usPerDay] <;>
    omega

theorem bucketFloor_sub_size (g : Interval) (t : ℤ) :
    bucketFloor g (t - bucketSize g) = bucketFloor g t - bucketSize g := by
  cases g <;>
    simp only [bucketFloor, bucketSize, usPerMinute, usPerHour, usPerDay] <;>
    omega

/-- Membership of the bucket starting at a multiple of the bucket size is
exactly the half-open range of that width. -/
theorem bucketFloor_eq_iff (g : Interval) (t b : ℤ) (hb : bucketFloor g b = b) :
    bucketFloor g t = b ↔ b ≤ t ∧ t < b + bucketSize g := by
  cases g <;>
    simp only [bucketFloor, bucketSize, usPerMinute, usPerHour, usPerDay] at * <;>
    omega

/-- One raw measurement row, reduced to the fields the aggregation code
reads: the (already parsed) timestamp and the optional
`current_popularity`. -/
structure Sample where
  timestamp : ℤ
  current_popularity : Option ℤ
deriving DecidableEq, Repr

/-- Appending one item to a Python dict-of-lists
(`d.setdefault(k, []).append(s)` pattern of `main.py` lines 502-505):
insertion order of keys and of items within a key is preserved. -/
def insertItem (k : ℤ) (s : Sample) : List (ℤ × List Sample) → List (ℤ × List Sample)
  | [] => [(k, [s])]
  | (k', items) :: rest =>
    if k = k' then (k', items ++ [s]) :: rest
    else (k', items) :: insertItem k s rest

/-- Group a sequence of samples by a key function, as the bucketing loops
of `main.py` / `backfill.py` do with a dict keyed by bucket start. -/
def groupBy (key : Sample → ℤ) (data : List Sample) : List (ℤ × List Sample) :=
  data.foldl (fun acc s => insertItem (key s) s acc) []

theorem insertItem_keys_mem {k : ℤ} {acc : List (ℤ × List Sample)} (s : Sample)
    (h : k ∈ acc.map Prod.fst) :
    (insertItem k s acc).map Prod.fst = acc.map Prod.fst := by
  induction acc with
  | nil => simp at h
  | cons p rest ih =>
    obtain ⟨k', items⟩ := p
    simp only [List.map_cons] at h ⊢
    by_cases hk : k = k'
    · simp [insertItem, hk]
    · rcases List.mem_cons.1 h with h | h
      · exact absurd h hk
      · simp [insertItem, hk, ih h]

theorem insertItem_keys_not_mem {k : ℤ} {acc : List (ℤ × List Sample)} (s : Sample)
    (h : k ∉ acc.map Prod.fst) :
    (insertItem k s acc).map Prod.fst = acc.map Prod.fst ++ [k] := by
  induction acc with
  | nil => simp [insertItem]
  | cons p rest ih =>
    obtain ⟨k', items⟩ := p
    simp only [List.map_cons, List.mem_cons, not_or] at h
    simp [insertItem, h.1, ih h.2]

theorem insertItem_keys_nodup {k : ℤ} {acc : List (ℤ × List Sample)} (s : Sample)
    (h : (acc.map Prod.fst).Nodup) :
    ((insertItem k s acc).map Prod.fst).Nodup := by
  by_cases hm : k ∈ acc.map Prod.fst
  · rw [insertItem_keys_mem s hm]; exact h
  · rw [insertItem_keys_not_mem s hm]
    simpa using List.Nodup.append h (List.nodup_singleton k) (by simpa using hm)

theorem insertItem_key_eq {key : Sample → ℤ} {acc : List (ℤ × List Sample)}
    {s : Sample} (hinv : ∀ p ∈ acc, ∀ x ∈ p.2, key x = p.1)
    (p : ℤ × List Sample) (hp : p ∈ insertItem (key s) s acc) :
    ∀ x ∈ p.2, key x = p.1 := by
  induction acc with
  | nil =>
    simp only [insertItem, List.mem_singleton] at hp
    subst hp; simp
  | cons q rest ih =>
    obtain ⟨k', items⟩ := q
    simp only [insertItem] at hp
    by_cases hk : key s = k'
    · simp only [if_pos hk, List.mem_cons] at hp
      rcases hp with hp | hp
      · subst hp
        intro x hx
        simp only [List.mem_append, List.mem_singleton] at hx
        rcases hx with hx | hx
        · exact hinv (k', items) (by simp) x hx
        · subst hx; exact hk
      · exact hinv p (by simp [hp])
    · simp only [if_neg hk, List.mem_cons] at hp
      rcases hp with hp | hp
      · subst hp; exact hinv (k', items) (by simp)
      · exact ih (fun q hq => hinv q (by simp [hq])) hp

theorem insertItem_join_perm (k : ℤ) (s : Sample) (acc : List (ℤ × List Sample)) :
    ((insertItem k s acc).map Prod.snd).flatten.Perm
      ((acc.map Prod.snd).flatten ++ [s]) := by
  induction acc with
  | nil => simp [insertItem]
  | cons p rest ih =>
    obtain ⟨k', items⟩ := p
    by_cases hk : k = k'
    · simp only [insertItem, if_pos hk, List.map_cons, List.flatten_cons,
        List.append_assoc]
      exact List.Perm.append_left items List.perm_append_comm
    · simp only [insertItem, if_neg hk, List.map_cons, List.flatten_cons,
        List.append_assoc]
      exact List.Perm.append_left items ih

theorem groupBy_keys_nodup (key : Sample → ℤ) (data : List Sample) :
    ((groupBy key data).map Prod.fst).Nodup := by
  suffices h : ∀ acc : List (ℤ × List Sample), (acc.map Prod.fst).Nodup →
      (((data.foldl (fun acc s => insertItem (key s) s acc) acc).map Prod.fst).Nodup) by
    exact h [] (by simp)
  induction data with
  | nil => intro acc hacc; simpa using hacc
  | cons s ds ih =>
    intro acc hacc
    exact ih _ (insertItem_keys_nodup s hacc)

theorem groupBy_key_eq (key : Sample → ℤ) (data : List Sample) :
    ∀ p ∈ groupBy key data, ∀ x ∈ p.2, key x = p.1 := by
  suffices h : ∀ acc : List (ℤ × List Sample), (∀ p ∈ acc, ∀ x ∈ p.2, key x = p.1) →
      ∀ p ∈ data.foldl (fun acc s => insertItem (key s) s acc) acc, ∀ x ∈ p.2, key x = p.1 by
    exact h [] (by simp)
  induction data with
  | nil => intro acc hacc; simpa using hacc
  | cons s ds ih =>
    intro acc hacc
    exact ih _ (fun p hp => insertItem_key_eq hacc p hp)

theorem groupBy_join_perm (key : Sample → ℤ) (data : List Sample) :
    ((groupBy key data).map Prod.snd).flatten.Perm data := by
  suffices h : ∀ acc : List (ℤ × List Sample),
      (((data.foldl (fun acc s => insertItem (key s) s acc) acc).map Prod.snd).flatten).Perm
        ((acc.map Prod.snd).flatten ++ data) by
    simpa using h []
  induction data with
  | nil => intro acc; simp
  | cons s ds ih =>
    intro acc
    refine (ih (insertItem (key s) s acc)).trans ?_
    have := (insertItem_join_perm (key s) s acc).append_right ds
    simpa using this

theorem nodup_keys_snd_eq {g : List (ℤ × List Sample)}
    (h : (g.map Prod.fst).Nodup) {k : ℤ} {a b : List Sample}
    (ha : (k, a) ∈ g) (hb : (k, b) ∈ g) : a = b := by
  induction g with
  | nil => simp at ha
  | cons p rest ih =>
    obtain ⟨pk, pl⟩ := p
    simp only [List.map_cons, List.nodup_cons] at h
    rcases List.mem_cons.1 ha with ha' | ha' <;> rcases List.mem_cons.1 hb with hb' | hb'
    · simpa using ha'.trans hb'.symm
    · exfalso
      injection ha' with e1 e2
      subst e1
      exact h.1 (by simpa using List.mem_map_of_mem Prod.fst hb')
    · exfalso
      injection hb' with e1 e2
      subst e1
      exact h.1 (by simpa using List.mem_map_of_mem Prod.fst ha')
    · exact ih h.2 ha' hb'

theorem groupBy_mem_exists (key : Sample → ℤ) (data : List Sample)
    {s : Sample} (hs : s ∈ data) :
    ∃ items, (key s, items) ∈ groupBy key data ∧ s ∈ items := by
  have hmem : s ∈ ((groupBy key data).map Prod.snd).flatten :=
    (groupBy_join_perm key data).mem_iff.2 hs
  rcases List.mem_flatten.1 hmem with ⟨l, hl, hsl⟩
  rcases List.mem_map.1 hl with ⟨p, hp, rfl⟩
  have hkey := groupBy_key_eq key data p hp s hsl
  refine ⟨p.2, ?_, hsl⟩
  have hpe : p = (key s, p.2) := by rw [hkey]
  rwa [hpe] at hp

/-- C3: for every granularity and every finite sample sequence, bucketing
places each sample in exactly one bucket; the bucket start is the sample's
timestamp with all finer calendar fields zeroed; the union of the bucket
members is a permutation of the input; and re-deriving the bucket start
from any member of a bucket yields that bucket's start. -/
theorem c3_bucketing_partition (g : Interval) (data : List Sample) :
    (∀ t : ℤ, bucketFloor g t = ofParts (zeroFine g (toParts t))) ∧
    (∀ s ∈ data, ∃ items,
        (bucketFloor g s.timestamp, items) ∈
          groupBy (fun x => bucketFloor g x.timestamp) data ∧ s ∈ items ∧
        ∀ p ∈ groupBy (fun x => bucketFloor g x.timestamp) data, s ∈ p.2 →
          p = (bucketFloor g s.timestamp, items)) ∧
    ((groupBy (fun x => bucketFloor g x.timestamp) data).map Prod.snd).flatten.Perm data ∧
    (∀ p ∈ groupBy (fun x => bucketFloor g x.timestamp) data, ∀ s ∈ p.2,
        bucketFloor g s.timestamp = p.1) := by
  refine ⟨bucketFloor_eq_zeroFine g, ?_, groupBy_join_perm _ data,
    groupBy_key_eq _ data⟩
  intro s hs
  obtain ⟨items, hmem, hin⟩ := groupBy_mem_exists (fun x => bucketFloor g x.timestamp) data hs
  refine ⟨items, hmem, hin, ?_⟩
  intro p hp hsp
  have hk : p.1 = bucketFloor g s.timestamp :=
    (groupBy_key_eq (fun x => bucketFloor g x.timestamp) data p hp s hsp).symm
  have hsnd : p.2 = items := by
    apply nodup_keys_snd_eq (groupBy_keys_nodup (fun x => bucketFloor g x.timestamp) data)
      (k := bucketFloor g s.timestamp)
    · rw [← hk]; simpa using hp
    · exact hmem
  rw [← hk, ← hsnd]

/-- Witness for C3: a concrete sample at 01:01:40 UTC (day 0) lands in the
hour bucket starting at 01:00:00, and re-deriving the bucket start from it
gives that start back. -/
theorem c3_bucketing_partition_witness :
    bucketFloor Interval.hour 3700000000 = 3600000000 :=
  (c3_bucketing_partition Interval.hour [⟨3700000000, some 5⟩]).2.2.2
    (3600000000, [⟨3700000000, some 5⟩]) (by decide) ⟨3700000000, some 5⟩ (by decide)

/-- The change part of `calculate_pizza_index` (`main.py` lines 274-355):
given the current time, the fetched historical rows and the current
(unrounded) index value, select the rows whose timestamp lies in the
window `[floor(now - Δ), floor(now))` at the chosen granularity, compute
the previous period's index from their valid popularities, and return
`(change, change_percent)`; both stay `0.0` when the window holds no valid
sample. -/
def calculateChange (g : Interval) (now : ℤ) (hist : List Sample) (idx : ℚ) : ℚ × ℚ :=
  let hi := bucketFloor g now
  let lo := bucketFloor g (now - bucketSize g)
  let period := hist.filter (fun s => lo ≤ s.timestamp ∧ s.timestamp < hi)
  let valid : List ℤ := period.filterMap (fun s => s.current_popularity)
  if valid.length > 0 then
    let prevAvg : ℚ := (valid.sum : ℚ) / (valid.length : ℚ)
    let prevIdx : ℚ := 100 + prevAvg * 0.8
    let change := pyRound 1 (idx - prevIdx)
    let changePct := if 0 < prevIdx then pyRound 2 (change / prevIdx * 100) else 0
    (change, changePct)
  else (0, 0)

/-- C2: at every granularity, the rows used for the previous period are
exactly those of the bucket immediately preceding the current bucket;
`change = round(current - previous, 1)`;
`change_percent = round(change / previous * 100, 2)` when the previous
index is positive, else `0.0`; and both are `0.0` when the previous bucket
has no valid sample. -/
theorem c2_live_change (g : Interval) (now : ℤ) (hist : List Sample) (idx : ℚ)
    (prevStart : ℤ) (hprev : prevStart = bucketFloor g now - bucketSize g)
    (validVals : List ℤ)
    (hv : validVals =
      (hist.filter (fun s => bucketFloor g s.timestamp = prevStart)).filterMap
        (fun s => s.current_popularity))
    (prevIdx : ℚ)
    (hpi : prevIdx = 100 + (validVals.sum : ℚ) / validVals.length * 0.8) :
    (validVals = [] → calculateChange g now hist idx = (0, 0)) ∧
    (validVals ≠ [] →
      calculateChange g now hist idx =
        (pyRound 1 (idx - prevIdx),
          if 0 < prevIdx then pyRound 2 (pyRound 1 (idx - prevIdx) / prevIdx * 100)
          else 0)) := by
  subst hpi hv hprev
  have hsub := bucketFloor_sub_size g now
  have h1 : bucketFloor g (bucketFloor g now - bucketSize g) =
      bucketFloor g now - bucketSize g := by
    rw [← hsub]; exact bucketFloor_idem g (now - bucketSize g)
  have hfilter :
      hist.filter
        (fun s => decide (bucketFloor g (now - bucketSize g) ≤ s.timestamp ∧
          s.timestamp < bucketFloor g now)) =
      hist.filter
        (fun s => decide (bucketFloor g s.timestamp = bucketFloor g now - bucketSize g)) := by
    apply List.filter_congr
    intro s _
    rw [decide_eq_decide, hsub,
      bucketFloor_eq_iff g s.timestamp (bucketFloor g now - bucketSize g) h1]
    omega
  constructor
  · intro h0
    simp only [calculateChange]
    rw [hfilter, h0]
    simp
  · intro hne
    simp only [calculateChange]
    rw [hfilter]
    rw [if_pos (List.length_pos.mpr hne)]

/-- Witness for C2: one valid sample with popularity 50 in the previous
hour bucket, current index 148; the change is `8.0` and the percentage
change is `5.71`. -/
theorem c2_live_change_witness :
    calculateChange Interval.hour 7200000000 [⟨3700000000, some 50⟩] 148 = (8, 5.71) := by
  have h :=
    (c2_live_change Interval.hour 7200000000 [⟨3700000000, some 50⟩] 148
      3600000000 (by decide) [50] (by decide) 140
      (by norm_num)).2 (by decide)
  rw [h]
  norm_num [pyRound, rhe]

/-- Number of samples in a bucket with a present `current_popularity`
(`valid_count` of `backfill.py` lines 68-73). -/
def bucketValidCount (items : List Sample) : ℕ :=
  (items.filterMap (fun s => s.current_popularity)).length

/-- The `avg_popularity` local of `backfill.py` line 74:
`(total_popularity / valid_count) if valid_count else 0`. -/
def bucketAvgPopularity (items : List Sample) : ℚ :=
  let valid : List ℤ := items.filterMap (fun s => s.current_popularity)
  if valid.length ≠ 0 then (valid.sum : ℚ) / (valid.length : ℚ) else 0

/-- The `index_value` local of `backfill.py` line 75:
`100 + (avg_popularity * 0.8) if valid_count else 100`. -/
def bucketIndexValue (items : List Sample) : ℚ :=
  if bucketValidCount items ≠ 0 then 100 + bucketAvgPopularity items * 0.8 else 100

/-- One row upserted into the aggregates table (`agg_data`,
`backfill.py` lines 76-82), restricted to its numeric payload. -/
structure AggRecord where
  value : ℚ
  avg_popularity : ℚ
  data_points : ℕ
deriving DecidableEq, Repr

/-- Aggregation of one bucket's samples (`backfill.py` lines 67-82). -/
def aggregateBucket (items : List Sample) : AggRecord :=
  { value := pyRound 1 (bucketIndexValue items)
    avg_popularity := pyRound 1 (bucketAvgPopularity items)
    data_points := bucketValidCount items }

/-- C4: `sample_count` is the number of samples with a present popularity;
the computed average is the arithmetic mean of the present values, or the
explicit sentinel `0` when there are none; on the five samples with
popularities `[10, null, 30, 50, null]` in the 14:00 hour bucket the
aggregate is `sample_count = 3`, `avg_popularity = 30.0`,
`index_value = 124.0`. -/
theorem c4_aggregator :
    (∀ items : List Sample,
      bucketValidCount items = (items.filterMap (fun s => s.current_popularity)).length) ∧
    (∀ items : List Sample, bucketValidCount items ≠ 0 →
      bucketAvgPopularity items =
        (((items.filterMap (fun s => s.current_popularity) : List ℤ)).sum : ℚ) /
          ((items.filterMap (fun s => s.current_popularity)).length : ℚ)) ∧
    (∀ items : List Sample, bucketValidCount items = 0 → bucketAvgPopularity items = 0) ∧
    aggregateBucket
      [⟨50400000000, some 10⟩, ⟨50460000000, none⟩, ⟨50520000000, some 30⟩,
        ⟨50580000000, some 50⟩, ⟨50640000000, none⟩] =
      ⟨124, 30, 3⟩ := by
  refine ⟨fun items => rfl, ?_, ?_, ?_⟩
  · intro items h
    simp only [bucketValidCount] at h
    simp [bucketAvgPopularity, h]
  · intro items h
    simp only [bucketValidCount] at h
    simp [bucketAvgPopularity, h]
  · have hv : bucketValidCount
        [⟨50400000000, some 10⟩, ⟨50460000000, none⟩, (⟨50520000000, some 30⟩ : Sample),
          ⟨50580000000, some 50⟩, ⟨50640000000, none⟩] = 3 := by decide
    norm_num [aggregateBucket, bucketIndexValue, bucketAvgPopularity, bucketValidCount,
      List.filterMap_cons, pyRound, rhe, AggRecord.mk.injEq]

/-- Witness for C4 on the five-sample scenario bucket. -/
theorem c4_aggregator_witness :
    bucketValidCount
      [⟨50400000000, some 10⟩, ⟨50460000000, none⟩, (⟨50520000000, some 30⟩ : Sample),
        ⟨50580000000, some 50⟩, ⟨50640000000, none⟩] ≠ 0 ∧
    bucketAvgPopularity
      [⟨50400000000, some 10⟩, ⟨50460000000, none⟩, (⟨50520000000, some 30⟩ : Sample),
        ⟨50580000000, some 50⟩, ⟨50640000000, none⟩] = 30 := by
  refine ⟨by decide, ?_⟩
  rw [c4_aggregator.2.1 _ (by decide)]
  norm_num [List.filterMap_cons]

/-- Page size of every paginated fetch (`main.py` line 470,
`backfill.py` line 19). -/
def pageSize : ℕ := 1000

/-- The auto-pagination loop of `get_pizza_index_chart_data`
(`main.py` lines 468-494) against a store that serves
`rows[offset : offset + limit]` for each page request, in the success
case: returns the concatenated rows and the list of page sizes received
(one entry per issued request). -/
def fetchLoop (store : List Sample) (offset : ℕ) : List Sample × List ℕ :=
  if ((store.drop offset).take pageSize).isEmpty then ([], [0])
  else if h : ((store.drop offset).take pageSize).length < pageSize then
    ((store.drop offset).take pageSize, [((store.drop offset).take pageSize).length])
  else
    ((store.drop offset).take pageSize ++ (fetchLoop store (offset + pageSize)).1,
      ((store.drop offset).take pageSize).length :: (fetchLoop store (offset + pageSize)).2)
termination_by store.length - offset
decreasing_by
  simp only [List.length_take, List.length_drop, pageSize] at h ⊢
  omega

theorem fetchLoop_fst (store : List Sample) (offset : ℕ) :
    (fetchLoop store offset).1 = store.drop offset := by
  suffices h : ∀ n offset, store.length - offset ≤ n →
      (fetchLoop store offset).1 = store.drop offset from h _ offset le_rfl
  intro n
  induction n with
  | zero =>
    intro offset h0
    have hd : store.drop offset = [] := List.drop_eq_nil_of_le (by omega)
    unfold fetchLoop
    simp [hd]
  | succ n ih =>
    intro offset h
    unfold fetchLoop
    by_cases h1 : ((store.drop offset).take pageSize).isEmpty
    · simp only [if_pos h1]
      have hnil : store.drop offset = [] := by
        rcases List.take_eq_nil_iff.1 (List.isEmpty_iff.1 h1) with h' | h'
        · exact absurd h' (by norm_num [pageSize])
        · exact h'
      simp [hnil]
    · by_cases h2 : ((store.drop offset).take pageSize).length < pageSize
      · simp only [if_neg h1, dif_pos h2]
        apply List.take_of_length_le
        simp only [List.length_take, List.length_drop] at h2 ⊢
        omega
      · simp only [if_neg h1, dif_neg h2]
        have hfull : pageSize ≤ store.length - offset := by
          simp only [List.length_take, List.length_drop] at h2
          omega
        have hp : pageSize = 1000 := rfl
        have hih := ih (offset + pageSize) (by omega)
        rw [hih, show store.drop (offset + pageSize) = (store.drop offset).drop pageSize from
          by rw [List.drop_drop, Nat.add_comm]]
        exact List.take_append_drop pageSize (store.drop offset)

theorem fetchLoop_step_full (store : List Sample) (offset : ℕ)
    (h : offset + pageSize ≤ store.length) :
    fetchLoop store offset =
      ((store.drop offset).take pageSize ++ (fetchLoop store (offset + pageSize)).1,
        pageSize :: (fetchLoop store (offset + pageSize)).2) := by
  have hlen : ((store.drop offset).take pageSize).length = pageSize := by
    simp only [List.length_take, List.length_drop]
    omega
  have hne : ¬((store.drop offset).take pageSize).isEmpty := by
    simp only [List.isEmpty_iff]
    intro hnil
    rw [hnil] at hlen
    simp [pageSize] at hlen
  conv_lhs => unfold fetchLoop
  rw [if_neg hne, dif_neg (by omega)]
  rw [hlen]

theorem fetchLoop_last (store : List Sample) (offset : ℕ)
    (hlt : store.length - offset < pageSize) (hgt : offset < store.length) :
    fetchLoop store offset = (store.drop offset, [store.length - offset]) := by
  have hlen : ((store.drop offset).take pageSize).length = store.length - offset := by
    simp only [List.length_take, List.length_drop]
    omega
  have htake : (store.drop offset).take pageSize = store.drop offset :=
    List.take_of_length_le (by simp only [List.length_drop]; omega)
  have hne : ¬((store.drop offset).take pageSize).isEmpty := by
    simp only [List.isEmpty_iff]
    intro hnil
    rw [hnil] at hlen
    simp at hlen
    omega
  conv_lhs => unfold fetchLoop
  rw [if_neg hne, dif_pos (by omega)]
  rw [hlen, htake]

/-- C5: the paginated fetcher requests pages of fixed size 1000 at offsets
increasing by 1000, stops exactly at a short or empty page, and returns the
concatenation in arrival order; on a store of 2500 rows it issues exactly
three requests receiving 1000, 1000 and 500 rows and returns all 2500 rows
in their original order. -/
theorem c5_pagination (store : List Sample) :
    (fetchLoop store 0).1 = store ∧
    (store.length = 2500 →
      (fetchLoop store 0).2 = [1000, 1000, 500] ∧ (fetchLoop store 0).1 = store) := by
  have hfst : (fetchLoop store 0).1 = store := by
    rw [fetchLoop_fst]; rfl
  refine ⟨hfst, fun h25 => ⟨?_, hfst⟩⟩
  rw [fetchLoop_step_full store 0 (by simp only [pageSize]; omega)]
  rw [fetchLoop_step_full store (0 + pageSize) (by simp only [pageSize]; omega)]
  rw [fetchLoop_last store (0 + pageSize + pageSize) (by simp only [pageSize]; omega)
    (by simp only [pageSize]; omega)]
  simp [pageSize, h25]

/-- Witness for C5 on a concrete 2500-row store. -/
theorem c5_pagination_witness :
    (List.replicate 2500 (Sample.mk 0 none)).length = 2500 ∧
    (fetchLoop (List.replicate 2500 (Sample.mk 0 none)) 0).2 = [1000, 1000, 500] :=
  ⟨List.length_replicate 2500 (Sample.mk 0 none),
    ((c5_pagination (List.replicate 2500 (Sample.mk 0 none))).2
      (List.length_replicate 2500 (Sample.mk 0 none))).1⟩

/-- The store's answer to one page request: a 200 response carrying rows,
or any non-success response. -/
inductive PageResult where
  | ok (rows : List Sample)
  | err
deriving DecidableEq, Repr

/-- The auto-pagination loop of `get_pizza_index_chart_data`
(`main.py` lines 468-494) over the sequence of page responses the store
returns: a non-200 page raises `HTTPException(status_code=500)`; an empty
or short page ends the loop; a full page is concatenated and the loop
continues. -/
def fetchChartPages : List PageResult → Except ℕ (List Sample)
  | [] => .ok []
  | .err :: _ => .error 500
  | .ok page :: rest =>
    if page.isEmpty then .ok []
    else if page.length < pageSize then .ok page
    else (fetchChartPages rest).map (fun tail => page ++ tail)

/-- The pagination loop of `fetch_all_popular_times`
(`backfill.py` lines 18-41) over the same page responses: a non-200 page
prints an error and `break`s, RETURNING the rows accumulated so far as the
function's result. -/
def fetchBackfillPages : List PageResult → List Sample
  | [] => []
  | .err :: _ => []
  | .ok page :: rest =>
    if page.isEmpty then []
    else if page.length < pageSize then page
    else page ++ fetchBackfillPages rest

/-- C6 counterexample: a full first page followed by a failing page
request. `fetch_all_popular_times` returns the 1000 rows fetched before
the failure as its (non-error) result, so the fetch neither fails with a
`DataStoreError` nor withholds the partial rows, contradicting the claim
for `backfill.py`. -/
theorem c6_error_abort_counterexample :
    fetchBackfillPages
        [PageResult.ok (List.replicate 1000 (Sample.mk 0 none)), PageResult.err] =
      List.replicate 1000 (Sample.mk 0 none) ∧
    List.replicate 1000 (Sample.mk 0 none) ≠ ([] : List Sample) := by
  have hlen : (List.replicate 1000 (Sample.mk 0 none)).length = 1000 :=
    List.length_replicate 1000 (Sample.mk 0 none)
  have hnil : List.replicate 1000 (Sample.mk 0 none) ≠ ([] : List Sample) := by
    intro h
    have := congrArg List.length h
    rw [hlen] at this
    simp only [List.length_nil] at this
    omega
  constructor
  · simp only [fetchBackfillPages]
    rw [if_neg (by simp only [List.isEmpty_iff]; exact hnil),
      if_neg (by rw [hlen]; norm_num [pageSize])]
    simp only [fetchBackfillPages, List.append_nil]
  · exact hnil

/-- C6 amended: the chart-data fetcher of `main.py` aborts the whole fetch
with a 500 `DataStoreError` as soon as any page request fails, returning no
partial rows; the backfill fetcher of `backfill.py` instead stops at the
failed page and returns the rows fetched so far. -/
theorem c6_error_abort_amended (chunks : List (List Sample)) (rest : List PageResult)
    (hfull : ∀ c ∈ chunks, c.length = pageSize) :
    fetchChartPages (chunks.map PageResult.ok ++ PageResult.err :: rest) = .error 500 ∧
    fetchBackfillPages (chunks.map PageResult.ok ++ PageResult.err :: rest) =
      chunks.flatten := by
  induction chunks with
  | nil => exact ⟨rfl, rfl⟩
  | cons c cs ih =>
    have hc : c.length = pageSize := hfull c (by simp)
    have hne : ¬c.isEmpty := by
      simp only [List.isEmpty_iff]
      intro h
      rw [h] at hc
      simp [pageSize] at hc
    have hnlt : ¬c.length < pageSize := by omega
    have ihr := ih (fun d hd => hfull d (by simp [hd]))
    constructor
    · simp only [List.map_cons, List.cons_append, fetchChartPages,
        if_neg hne, if_neg hnlt, List.append_eq, ihr.1, Except.map]
    · simp only [List.map_cons, List.cons_append, fetchBackfillPages,
        if_neg hne, if_neg hnlt, List.append_eq, ihr.2, List.flatten_cons]

/-- Witness for the amended C6 with one full page before the failure. -/
theorem c6_error_abort_amended_witness :
    fetchChartPages
        [PageResult.ok (List.replicate 1000 (Sample.mk 0 none)), PageResult.err] =
      .error 500 ∧
    fetchBackfillPages
        [PageResult.ok (List.replicate 1000 (Sample.mk 0 none)), PageResult.err] =
      ([List.replicate 1000 (Sample.mk 0 none)]).flatten :=
  c6_error_abort_amended [List.replicate 1000 (Sample.mk 0 none)] []
    (fun c hc => by
      cases List.mem_singleton.1 hc
      exact List.length_replicate 1000 (Sample.mk 0 none))

/-- State owned by the response cache of `main.py` (lines 127-138): the
`request_cache` dict mapping a key to `(payload, timestamp)`, and the
`cache_hits` / `cache_misses` counters of `performance_stats`. -/
structure CacheState (α : Type) where
  cache : List (String × (α × ℚ))
  hits : ℕ
  misses : ℕ

/-- Dict lookup. -/
def lookupKey (k : String) (l : List (String × α)) : Option α :=
  (l.find? (fun p => p.1 = k)).map Prod.snd

/-- Dict assignment `d[k] = v`: replaces the value in place if the key
exists, otherwise appends the new entry. -/
def upsertKey (k : String) (v : α) (l : List (String × α)) : List (String × α) :=
  if l.any (fun p => p.1 = k) then l.map (fun p => if p.1 = k then (k, v) else p)
  else l ++ [(k, v)]

/-- Dict deletion `del d[k]`. -/
def eraseKey (k : String) (l : List (String × α)) : List (String × α) :=
  l.filter (fun p => p.1 ≠ k)

/-- The cache TTL of `main.py` line 129 (60 seconds). -/
def CACHE_TTL : ℚ := 60

/-- `get_cached_response` (`main.py` lines 140-151): fresh entry → hit;
expired entry → delete it and count a miss; absent key → miss. -/
def getCachedResponse (now : ℚ) (key : String) (st : CacheState α) :
    Option α × CacheState α :=
  match lookupKey key st.cache with
  | some (data, ts) =>
    if now - ts < CACHE_TTL then (some data, { st with hits := st.hits + 1 })
    else (none, { st with cache := eraseKey key st.cache, misses := st.misses + 1 })
  | none => (none, { st with misses := st.misses + 1 })

/-- `set_cached_response` (`main.py` lines 153-155). -/
def setCachedResponse (now : ℚ) (key : String) (data : α) (st : CacheState α) :
    CacheState α :=
  { st with cache := upsertKey key (data, now) st.cache }

theorem lookupKey_upsertKey (k : String) (v : α) (l : List (String × α)) :
    lookupKey k (upsertKey k v l) = some v := by
  induction l with
  | nil => simp [lookupKey, upsertKey, List.find?]
  | cons p ps ih =>
    by_cases hp : p.1 = k
    · simp [upsertKey, lookupKey, List.find?, hp]
    · have hany : (p :: ps).any (fun q => q.1 = k) = ps.any (fun q => q.1 = k) := by
        simp [hp]
      by_cases hps : (ps.any (fun q => q.1 = k)) = true
      · have hcond : ((p :: ps).any (fun q => q.1 = k)) = true := by rw [hany]; exact hps
        have ih' : lookupKey k (ps.map (fun q => if q.1 = k then (k, v) else q)) = some v := by
          simpa only [upsertKey, if_pos hps] using ih
        simp only [upsertKey]
        rw [if_pos hcond]
        simp only [List.map_cons, if_neg hp, lookupKey] at ih' ⊢
        rw [List.find?_cons_of_neg _ (by simp [hp])]
        exact ih'
      · have hcond : ¬((p :: ps).any (fun q => q.1 = k)) = true := by rw [hany]; exact hps
        have ih' : lookupKey k (ps ++ [(k, v)]) = some v := by
          simpa only [upsertKey, if_neg hps] using ih
        simp only [upsertKey]
        rw [if_neg hcond]
        simp only [List.cons_append, lookupKey] at ih' ⊢
        rw [List.find?_cons_of_neg _ (by simp [hp])]
        exact ih'

theorem lookupKey_eraseKey (k : String) (l : List (String × α)) :
    lookupKey k (eraseKey k l) = none := by
  induction l with
  | nil => simp [lookupKey, eraseKey]
  | cons p ps ih =>
    by_cases hp : p.1 = k
    · simpa [eraseKey, hp] using ih
    · have hstep : eraseKey k (p :: ps) = p :: eraseKey k ps := by
        simp [eraseKey, List.filter_cons, hp]
      rw [hstep]
      simp only [lookupKey]
      rw [List.find?_cons_of_neg _ (by simp [hp])]
      exact ih

/-- C9: `put(k, v)` immediately followed by `get(k)` returns `v`; once 60
seconds have elapsed since the entry was stored, `get(k)` misses, deletes
the entry (a further lookup finds nothing), and increments the miss
counter. -/
theorem c9_cache_put_get {α : Type} (st : CacheState α) (k : String) (v : α) (t : ℚ) :
    (getCachedResponse t k (setCachedResponse t k v st)).1 = some v ∧
    (∀ now : ℚ, t + CACHE_TTL ≤ now →
      (getCachedResponse now k (setCachedResponse t k v st)).1 = none ∧
      (getCachedResponse now k (setCachedResponse t k v st)).2.misses = st.misses + 1 ∧
      lookupKey k (getCachedResponse now k (setCachedResponse t k v st)).2.cache = none) := by
  have hl : lookupKey k (setCachedResponse t k v st).cache = some (v, t) := by
    simp only [setCachedResponse]
    exact lookupKey_upsertKey k (v, t) st.cache
  constructor
  · rw [show getCachedResponse t k (setCachedResponse t k v st) =
        (some v, { setCachedResponse t k v st with
          hits := (setCachedResponse t k v st).hits + 1 }) from by
      simp only [getCachedResponse, hl]
      rw [if_pos (by norm_num [CACHE_TTL])]]
  · intro now hnow
    have hexp : ¬(now - t < CACHE_TTL) := by
      simp only [not_lt]
      linarith
    rw [show getCachedResponse now k (setCachedResponse t k v st) =
        (none, { setCachedResponse t k v st with
          cache := eraseKey k (setCachedResponse t k v st).cache,
          misses := (setCachedResponse t k v st).misses + 1 }) from by
      simp only [getCachedResponse, hl]
      rw [if_neg hexp]]
    exact ⟨rfl, rfl, lookupKey_eraseKey k _⟩

/-- Witness for C9: a payload stored at `t = 0` is returned immediately and
missed at `now = 60`. -/
theorem c9_cache_put_get_witness :
    (getCachedResponse 0 "pizza_index_live:interval=hour"
      (setCachedResponse 0 "pizza_index_live:interval=hour" (7 : ℕ)
        ⟨[], 0, 0⟩)).1 = some 7 ∧
    (0 : ℚ) + CACHE_TTL ≤ 60 ∧
    (getCachedResponse 60 "pizza_index_live:interval=hour"
      (setCachedResponse 0 "pizza_index_live:interval=hour" (7 : ℕ)
        ⟨[], 0, 0⟩)).1 = none :=
  ⟨(c9_cache_put_get ⟨[], 0, 0⟩ _ 7 0).1, by norm_num [CACHE_TTL],
    ((c9_cache_put_get ⟨[], 0, 0⟩ _ 7 0).2 60 (by norm_num [CACHE_TTL])).1⟩

/-- Python slice `l[::n]` (used as `[::5]` and `[::2]` in `main.py`
lines 506, 535 and 907): keep the elements at indices `0, n, 2n, ...`.
The second argument counts how many elements remain to be skipped. -/
def everyNthAux (n : ℕ) : ℕ → List α → List α
  | _, [] => []
  | 0, x :: xs => x :: everyNthAux n (n - 1) xs
  | k + 1, _ :: xs => everyNthAux n k xs

/-- Python slice `l[::n]`. -/
def everyNth (n : ℕ) (l : List α) : List α := everyNthAux n 0 l

/-- `sorted(d.keys())` over a grouped dict. -/
def sortedKeys (g : List (ℤ × List Sample)) : List ℤ :=
  (g.map Prod.fst).insertionSort (· ≤ ·)

/-- `d[k]` on a grouped dict (total, returning `[]` for an absent key; the
code only ever looks up keys taken from the dict itself). -/
def lookupItems (g : List (ℤ × List Sample)) (k : ℤ) : List Sample :=
  ((g.find? (fun p => p.1 = k)).map Prod.snd).getD []

/-- One point of the `/pizza-index/chart-data` series
(`main.py` lines 520-526). -/
structure ChartPoint where
  timestamp : ℤ
  value : ℚ
  avg_popularity : ℚ
  data_points : ℕ
  total_restaurants : ℕ
deriving DecidableEq, Repr

/-- Per-bucket body of the chart loops (`main.py` lines 508-526, 537-555,
565-582): a point is emitted only when the bucket holds at least one valid
popularity. -/
def chartPoint (k : ℤ) (items : List Sample) : Option ChartPoint :=
  let valid : List ℤ := items.filterMap (fun s => s.current_popularity)
  if 0 < valid.length then
    some { timestamp := k
           value := pyRound 1 (100 + (valid.sum : ℚ) / (valid.length : ℚ) * 0.8)
           avg_popularity := pyRound 1 ((valid.sum : ℚ) / (valid.length : ℚ))
           data_points := valid.length
           total_restaurants := items.length }
  else none

/-- The interval-specific series of `get_pizza_index_chart_data`
(`main.py` lines 497-582): group into buckets, sort the keys ascending,
keep every 5th minute key / every 2nd hour key / all day keys, and emit a
point per sampled non-empty bucket. -/
def pizzaChartSeries (g : Interval) (data : List Sample) : List ChartPoint :=
  let groups := groupBy (fun s => bucketFloor g s.timestamp) data
  let sampled :=
    match g with
    | .minute => everyNth 5 (sortedKeys groups)
    | .hour => everyNth 2 (sortedKeys groups)
    | .day => sortedKeys groups
  sampled.filterMap (fun k => chartPoint k (lookupItems groups k))

/-- The `/pizza-index/chart-data` endpoint's dispatch on the `interval`
string (`main.py` lines 498, 527, 556): an unrecognized interval matches
no branch, so `chart_data` stays `[]` and the endpoint still answers
successfully. -/
def pizzaChartData (interval : String) (data : List Sample) :
    Except ℕ (List ChartPoint) :=
  if interval = "minute" then .ok (pizzaChartSeries .minute data)
  else if interval = "hour" then .ok (pizzaChartSeries .hour data)
  else if interval = "day" then .ok (pizzaChartSeries .day data)
  else .ok []

/-- The lookback selection of `calculate_pizza_index`
(`main.py` lines 282-289): an unrecognized interval silently defaults to
the one-hour lookback. -/
def liveLookback (interval : String) : ℤ :=
  if interval = "minute" then usPerMinute
  else if interval = "hour" then usPerHour
  else if interval = "day" then usPerDay
  else usPerHour

deriving instance DecidableEq for Except

/-- One point of the `/restaurant/{id}/chart-data` series
(`main.py` lines 918-936); the opaque `rating`/`data_quality` pass-through
fields are omitted. `popularity` is `none` exactly for the explicit
`no_data` record. -/
structure RestChartPoint where
  timestamp : ℤ
  popularity : Option ℤ
  data_points : ℕ
  total_attempts : ℕ
deriving DecidableEq, Repr

/-- Per-bucket body of the per-restaurant chart (`main.py` lines 910-936):
take the last valid item of the bucket, or emit an explicit no-data
record. -/
def restChartPoint (k : ℤ) (items : List Sample) : RestChartPoint :=
  let valid := items.filter (fun s => s.current_popularity ≠ none)
  match valid.getLast? with
  | some latest =>
    { timestamp := k
      popularity := latest.current_popularity
      data_points := valid.length
      total_attempts := items.length }
  | none =>
    { timestamp := k
      popularity := none
      data_points := 0
      total_attempts := items.length }

/-- `get_restaurant_chart_data` (`main.py` lines 846-992): for intervals
other than `hour`/`day`, line 881 raises HTTPException(400), but that
raise sits inside the `try:` of line 856 and the function has no separate
`except HTTPException: raise` clause, so the blanket `except Exception`
handler at lines 990-992 catches it and re-raises HTTP 500 — the client
observably receives 500. `hour` samples every 2nd sorted hour bucket;
`day` keeps all day buckets; every sampled bucket emits a point (a
`no_data` one when empty). -/
def restaurantChartData (interval : String) (data : List Sample) :
    Except ℕ (List RestChartPoint) :=
  if interval = "hour" then
    let groups := groupBy (fun s => bucketFloor Interval.hour s.timestamp) data
    .ok ((everyNth 2 (sortedKeys groups)).map (fun k => restChartPoint k (lookupItems groups k)))
  else if interval = "day" then
    let groups := groupBy (fun s => bucketFloor Interval.day s.timestamp) data
    .ok ((sortedKeys groups).map (fun k => restChartPoint k (lookupItems groups k)))
  else .error 500

/-- C7 counterexample: no endpoint observably rejects the unrecognized
interval "fortnight" with 400: the pizza-index chart endpoint answers 200
with an empty series, the live endpoint treats it as the default hour
lookback, and the per-restaurant chart endpoint answers 500 (its blanket
exception handler swallows the internal 400) — contradicting the claim
that every operation rejects unknown granularities with
`InvalidArgument`/400. -/
theorem c7_invalid_interval_counterexample :
    pizzaChartData "fortnight" [Sample.mk 0 (some 50)] = .ok [] ∧
    pizzaChartData "fortnight" [Sample.mk 0 (some 50)] ≠ .error 400 ∧
    liveLookback "fortnight" = liveLookback "hour" ∧
    restaurantChartData "fortnight" [] = .error 500 ∧
    restaurantChartData "fortnight" [] ≠ .error 400 := by
  refine ⟨?_, ?_, ?_, ?_, ?_⟩
  · simp only [pizzaChartData]
    rw [if_neg (by decide), if_neg (by decide), if_neg (by decide)]
  · simp only [pizzaChartData]
    rw [if_neg (by decide), if_neg (by decide), if_neg (by decide)]
    exact fun h => by injection h
  · rfl
  · simp only [restaurantChartData]
    rw [if_neg (by decide), if_neg (by decide)]
  · simp only [restaurantChartData]
    rw [if_neg (by decide), if_neg (by decide)]
    intro h
    injection h with h
    exact absurd h (by decide)

/-- C7 amended: no endpoint answers 400 for an unrecognized interval.
The per-restaurant chart endpoint raises InvalidArgument/400 internally
for everything but `hour`/`day`, but its blanket exception handler
converts it to HTTP 500; the pizza-index chart endpoint returns an empty
series with success for unknown intervals; and the live endpoint silently
defaults them to the hour lookback. -/
theorem c7_invalid_interval_amended :
    (∀ interval : String, interval ≠ "hour" → interval ≠ "day" →
      ∀ data, restaurantChartData interval data = .error 500) ∧
    (∀ interval : String, interval ≠ "minute" → interval ≠ "hour" → interval ≠ "day" →
      (∀ data, pizzaChartData interval data = .ok []) ∧
      liveLookback interval = usPerHour) := by
  constructor
  · intro i h1 h2 data
    simp only [restaurantChartData, if_neg h1, if_neg h2]
  · intro i h1 h2 h3
    refine ⟨fun data => ?_, ?_⟩
    · simp only [pizzaChartData, if_neg h1, if_neg h2, if_neg h3]
    · simp only [liveLookback, if_neg h1, if_neg h2, if_neg h3]

/-- Witness for the amended C7 at the concrete interval "fortnight". -/
theorem c7_invalid_interval_amended_witness :
    restaurantChartData "fortnight" [] = .error 500 ∧
    pizzaChartData "fortnight" [] = .ok [] ∧
    liveLookback "fortnight" = usPerHour :=
  ⟨c7_invalid_interval_amended.1 "fortnight" (by decide) (by decide) [],
    (c7_invalid_interval_amended.2 "fortnight" (by decide) (by decide) (by decide)).1 [],
    (c7_invalid_interval_amended.2 "fortnight" (by decide) (by decide) (by decide)).2⟩

theorem chartPoint_pos (k : ℤ) (items : List Sample)
    (h : 0 < bucketValidCount items) : chartPoint k items ≠ none := by
  simp only [bucketValidCount] at h
  simp [chartPoint, h]

theorem chartPoint_neg (k : ℤ) (items : List Sample)
    (h : ¬0 < bucketValidCount items) : chartPoint k items = none := by
  simp only [bucketValidCount] at h
  simp [chartPoint, h]

theorem chartPoint_timestamp {k : ℤ} {items : List Sample} {pt : ChartPoint}
    (h : chartPoint k items = some pt) : pt.timestamp = k := by
  simp only [chartPoint] at h
  split_ifs at h
  injection h with h
  rw [← h]

theorem map_timestamp_filterMap_chartPoint (g : List (ℤ × List Sample)) (ks : List ℤ) :
    (ks.filterMap (fun k => chartPoint k (lookupItems g k))).map (fun p => p.timestamp) =
      ks.filter (fun k => 0 < bucketValidCount (lookupItems g k)) := by
  induction ks with
  | nil => rfl
  | cons k ks ih =>
    rw [List.filter_cons]
    rcases hcp : chartPoint k (lookupItems g k) with _ | pt
    · have hfalse : ¬0 < bucketValidCount (lookupItems g k) :=
        fun hc => chartPoint_pos k _ hc hcp
      rw [@List.filterMap_cons_none _ _ (fun k => chartPoint k (lookupItems g k)) k ks hcp,
        if_neg (by simpa using hfalse)]
      exact ih
    · have htrue : 0 < bucketValidCount (lookupItems g k) := by
        by_contra hc
        rw [chartPoint_neg k _ hc] at hcp
        exact Option.noConfusion hcp
      rw [@List.filterMap_cons_some _ _ (fun k => chartPoint k (lookupItems g k)) k ks pt hcp,
        if_pos (by simpa using htrue), List.map_cons, ih, chartPoint_timestamp hcp]

theorem restChartPoint_timestamp (k : ℤ) (items : List Sample) :
    (restChartPoint k items).timestamp = k := by
  simp only [restChartPoint]
  split <;> rfl

/-- Six samples in six consecutive minute buckets, all carrying a valid
popularity, all inside one hour bucket. -/
def sixMinuteSamples : List Sample :=
  [Sample.mk 0 (some 10), Sample.mk 60000000 (some 10), Sample.mk 120000000 (some 10),
    Sample.mk 180000000 (some 10), Sample.mk 240000000 (some 10),
    Sample.mk 300000000 (some 10)]

/-- C10: the chart endpoints do not emit one point per non-empty bucket:
the pizza-index series keeps only every 5th sorted minute bucket and every
2nd sorted hour bucket (then drops buckets without valid samples), the
per-restaurant hour series keeps only every 2nd sorted hour bucket, and
only day series keep every bucket; concretely, six consecutive non-empty
minute buckets produce just 2 chart points. -/
theorem c10_chart_sampling :
    (∀ data : List Sample,
      (pizzaChartSeries Interval.minute data).map (fun p => p.timestamp) =
        (everyNth 5 (sortedKeys
            (groupBy (fun s => bucketFloor Interval.minute s.timestamp) data))).filter
          (fun k => 0 < bucketValidCount
            (lookupItems (groupBy (fun s => bucketFloor Interval.minute s.timestamp) data) k))) ∧
    (∀ data : List Sample,
      (pizzaChartSeries Interval.hour data).map (fun p => p.timestamp) =
        (everyNth 2 (sortedKeys
            (groupBy (fun s => bucketFloor Interval.hour s.timestamp) data))).filter
          (fun k => 0 < bucketValidCount
            (lookupItems (groupBy (fun s => bucketFloor Interval.hour s.timestamp) data) k))) ∧
    (∀ data : List Sample,
      (pizzaChartSeries Interval.day data).map (fun p => p.timestamp) =
        (sortedKeys (groupBy (fun s => bucketFloor Interval.day s.timestamp) data)).filter
          (fun k => 0 < bucketValidCount
            (lookupItems (groupBy (fun s => bucketFloor Interval.day s.timestamp) data) k))) ∧
    (∀ (data : List Sample) (pts : List RestChartPoint),
      restaurantChartData "hour" data = .ok pts →
      pts.map (fun p => p.timestamp) =
        everyNth 2 (sortedKeys (groupBy (fun s => bucketFloor Interval.hour s.timestamp) data))) ∧
    ((groupBy (fun s => bucketFloor Interval.minute s.timestamp) sixMinuteSamples).length = 6 ∧
      (pizzaChartSeries Interval.minute sixMinuteSamples).length = 2) := by
  refine ⟨fun data => map_timestamp_filterMap_chartPoint _ _,
    fun data => map_timestamp_filterMap_chartPoint _ _,
    fun data => map_timestamp_filterMap_chartPoint _ _, ?_, ?_, ?_⟩
  · intro data pts h
    simp only [restaurantChartData, if_pos rfl] at h
    injection h with h
    subst h
    rw [List.map_map]
    have : ((fun p : RestChartPoint => p.timestamp) ∘ fun k =>
        restChartPoint k (lookupItems
          (groupBy (fun s => bucketFloor Interval.hour s.timestamp) data) k)) = fun k => k := by
      funext k
      exact restChartPoint_timestamp k _
    rw [this, List.map_id']
  · decide
  · have hmap := map_timestamp_filterMap_chartPoint
      (groupBy (fun s => bucketFloor Interval.minute s.timestamp) sixMinuteSamples)
      (everyNth 5 (sortedKeys
        (groupBy (fun s => bucketFloor Interval.minute s.timestamp) sixMinuteSamples)))
    have hlen : (pizzaChartSeries Interval.minute sixMinuteSamples).length =
        ((everyNth 5 (sortedKeys
            (groupBy (fun s => bucketFloor Interval.minute s.timestamp) sixMinuteSamples))).filter
          (fun k => 0 < bucketValidCount
            (lookupItems (groupBy (fun s => bucketFloor Interval.minute s.timestamp)
              sixMinuteSamples) k))).length := by
      rw [← hmap, List.length_map]
      rfl
    rw [hlen]
    decide

/-- Witness for C10: for six samples in one hour bucket the per-restaurant
hour series has the single sampled bucket start `0`. -/
theorem c10_chart_sampling_witness :
    restaurantChartData "hour" sixMinuteSamples =
      .ok [RestChartPoint.mk 0 (some 10) 6 6] ∧
    ([RestChartPoint.mk 0 (some 10) 6 6].map (fun p => p.timestamp) =
      everyNth 2 (sortedKeys
        (groupBy (fun s => bucketFloor Interval.hour s.timestamp) sixMinuteSamples))) :=
  ⟨by decide, c10_chart_sampling.2.2.2.1 sixMinuteSamples
    [RestChartPoint.mk 0 (some 10) 6 6] (by decide)⟩

/-- A parsed `datetime` value: calendar fields plus microseconds. -/
structure DT where
  year : ℕ
  month : ℕ
  day : ℕ
  hour : ℕ
  minute : ℕ
  second : ℕ
  usec : ℕ
deriving DecidableEq, Repr

/-- Numeric value of a digit run. -/
def digitsVal (l : List Char) : ℕ := l.foldl (fun acc c => acc * 10 + (c.toNat - 48)) 0

/-- Gregorian leap year. -/
def isLeapYear (y : ℕ) : Bool := y % 4 = 0 && (y % 100 ≠ 0 || y % 400 = 0)

/-- Days in a month, as validated by `datetime`. -/
def daysInMonth (y m : ℕ) : ℕ :=
  if m = 2 then (if isLeapYear y then 29 else 28)
  else if m = 4 ∨ m = 6 ∨ m = 9 ∨ m = 11 then 30 else 31


/-- Python `s.endswith(suf)` on character lists. -/
def endsWithChars (suf l : List Char) : Bool := l.drop (l.length - suf.length) == suf

/-- The characters of the `'+00:00'` suffix the parser appends. -/
def plusUTC : List Char := ['+', '0', '0', ':', '0', '0']

/-- `s.replace('Z', '+00:00')`: every `Z` is replaced. -/
def replaceZchar : List Char → List Char
  | [] => []
  | c :: rest =>
    if c = 'Z' then '+' :: '0' :: '0' :: ':' :: '0' :: '0' :: replaceZchar rest
    else c :: replaceZchar rest

/-- `s.split(c, 1)[0]` and `s.find(c)`-based slicing: the part before the
first occurrence of `c` (all of `s` when `c` is absent). -/
def beforeChar (c : Char) (l : List Char) : List Char := l.takeWhile (fun x => x ≠ c)

/-- `s.split(c, 1)[1]` / the slice after the first occurrence of `c`
(empty when `c` is absent; the code only reads it after an `in` check). -/
def afterChar (c : Char) (l : List Char) : List Char :=
  (l.dropWhile (fun x => x ≠ c)).drop 1

/-- Python `c in s`. -/
def containsChar (c : Char) (l : List Char) : Bool := l.any (fun x => x = c)

/-- `_parse_isoformat_date` of pre-3.11 CPython on the ten-character date
slice: a four digit year, `-`, two digit month, `-`, two digit day.
`int` on the slices is modelled in its all-digit form, and a slice
shorter than ten characters is modelled as failing — which is how every
string this service ever passes in behaves, since they all end in
`'+00:00'` and a short one never survives the year digits and the `-`
separator checks. -/
def parseIsoDate : List Char → Option (ℕ × ℕ × ℕ)
  | [y1, y2, y3, y4, s1, m1, m2, s2, d1, d2] =>
    if y1.isDigit ∧ y2.isDigit ∧ y3.isDigit ∧ y4.isDigit ∧ s1 = '-' ∧
        m1.isDigit ∧ m2.isDigit ∧ s2 = '-' ∧ d1.isDigit ∧ d2.isDigit then
      some (digitsVal [y1, y2, y3, y4], digitsVal [m1, m2], digitsVal [d1, d2])
    else none
  | _ => none

/-- The fractional tail of `_parse_hh_mm_ss_ff`: after the `.` the
remainder must be exactly 3 or 6 digits — the pre-3.11 rule that makes
5-digit fractions fail and that the repair branch of
`parse_timestamp_robust` exists for; 3 digits are scaled by 1000. -/
def fracVal (l : List Char) : Option ℕ :=
  if l.length = 3 ∧ l.all Char.isDigit then some (digitsVal l * 1000)
  else if l.length = 6 ∧ l.all Char.isDigit then some (digitsVal l)
  else none

/-- `_parse_hh_mm_ss_ff` of pre-3.11 CPython: `HH[:MM[:SS[.fff[fff]]]]`.
The minute and second components are OPTIONAL and default to 0; after a
full `HH:MM:SS` the only allowed continuation is `.` plus a 3- or 6-digit
fraction. `int` on the two-digit slices is modelled in its all-digit
form. -/
def parseHMSF : List Char → Option (ℕ × ℕ × ℕ × ℕ)
  | c1 :: c2 :: r1 =>
    if c1.isDigit ∧ c2.isDigit then
      match r1 with
      | [] => some (digitsVal [c1, c2], 0, 0, 0)
      | s1 :: r2 =>
        if s1 = ':' then
          match r2 with
          | d1 :: d2 :: r3 =>
            if d1.isDigit ∧ d2.isDigit then
              match r3 with
              | [] => some (digitsVal [c1, c2], digitsVal [d1, d2], 0, 0)
              | s2 :: r4 =>
                if s2 = ':' then
                  match r4 with
                  | e1 :: e2 :: r5 =>
                    if e1.isDigit ∧ e2.isDigit then
                      match r5 with
                      | [] => some (digitsVal [c1, c2], digitsVal [d1, d2],
                          digitsVal [e1, e2], 0)
                      | s3 :: frac =>
                        if s3 = '.' then
                          (fracVal frac).map (fun us => (digitsVal [c1, c2],
                            digitsVal [d1, d2], digitsVal [e1, e2], us))
                        else none
                    else none
                  | _ => none
                else none
            else none
          | _ => none
        else none
    else none
  | _ => none

/-- The timezone-bearing path of `_parse_isoformat_time`, entered when the
sign character `s` (the first `-` of the time slice if any, else its first
`+`) was found: the text before the sign must parse as a time, the text
after it must be exactly 5, 8 or 15 characters long (`HH:MM`, `HH:MM:SS`
or `HH:MM:SS.ffffff`) and parse as a time; an all-zero offset is UTC, and
a nonzero one (negated for `-`) must lie strictly inside ±24 hours — the
`timezone` constructor's range, modelled in microseconds. -/
def parseIsoTimeCore (s : Char) (t : List Char) : Option (ℕ × ℕ × ℕ × ℕ × Option ℤ) :=
  match parseHMSF (beforeChar s t) with
  | none => none
  | some c =>
    if (afterChar s t).length = 5 ∨ (afterChar s t).length = 8 ∨
        (afterChar s t).length = 15 then
      match parseHMSF (afterChar s t) with
      | none => none
      | some z =>
        if z.1 = 0 ∧ z.2.1 = 0 ∧ z.2.2.1 = 0 ∧ z.2.2.2 = 0 then
          some (c.1, c.2.1, c.2.2.1, c.2.2.2, some 0)
        else
          if (((z.1 * 60 + z.2.1) * 60 + z.2.2.1) * 1000000 + z.2.2.2 : ℤ).natAbs
              < 86400000000 then
            some (c.1, c.2.1, c.2.2.1, c.2.2.2,
              some ((if s = '-' then -1 else 1) *
                (((z.1 * 60 + z.2.1) * 60 + z.2.2.1) * 1000000 + z.2.2.2 : ℤ)))
          else none
    else none

/-- `_parse_isoformat_time` of pre-3.11 CPython: at least two characters;
the offset, if any, starts at the FIRST `-` of the slice if one exists,
else at its first `+`; with no sign character anywhere the result is
naive (`none` offset). -/
def parseIsoTime (t : List Char) : Option (ℕ × ℕ × ℕ × ℕ × Option ℤ) :=
  if t.length < 2 then none
  else if containsChar '-' t then parseIsoTimeCore '-' t
  else if containsChar '+' t then parseIsoTimeCore '+' t
  else (parseHMSF t).map (fun c => (c.1, c.2.1, c.2.2.1, c.2.2.2, none))

/-- The range validation of the `datetime` constructor (year 1..9999,
month 1..12, day 1..days-in-month, hour ≤ 23, minute ≤ 59, second ≤ 59,
microsecond ≤ 999999). Its `ValueError` messages do not contain
`'Invalid isoformat string'`, which is what lets the caller's repair
branch tell them apart from parse failures. -/
abbrev dtValid (y mo d hh mi ss us : ℕ) : Prop :=
  1 ≤ y ∧ y ≤ 9999 ∧ 1 ≤ mo ∧ mo ≤ 12 ∧ 1 ≤ d ∧ d ≤ daysInMonth y mo ∧
  hh ≤ 23 ∧ mi ≤ 59 ∧ ss ≤ 59 ∧ us ≤ 999999

/-- The observable outcomes of one `datetime.fromisoformat` call: a parsed
value, a parse failure (`ValueError` whose message contains `'Invalid
isoformat string'`), or a constructor range failure (`ValueError` with a
different message). -/
inductive IsoResult where
  | ok (dt : DT) (off : Option ℤ)
  | invalidFmt
  | rangeErr
deriving DecidableEq, Repr

/-- `datetime.fromisoformat` of pre-3.11 CPython: the date is read from
the first ten characters, the character at index 10 — the separator — is
NEVER examined, and the time with optional offset is read from index 11
on; an empty time slice defaults to midnight, naive. Date-only inputs are
therefore accepted and yield naive datetimes. -/
def fromIso (cs : List Char) : IsoResult :=
  match parseIsoDate (cs.take 10) with
  | none => .invalidFmt
  | some (y, mo, d) =>
    match cs.drop 11 with
    | [] =>
      if dtValid y mo d 0 0 0 0 then .ok ⟨y, mo, d, 0, 0, 0, 0⟩ none else .rangeErr
    | c :: t =>
      match parseIsoTime (c :: t) with
      | none => .invalidFmt
      | some (hh, mi, ss, us, off) =>
        if dtValid y mo d hh mi ss us then .ok ⟨y, mo, d, hh, mi, ss, us⟩ off
        else .rangeErr

/-- The preprocessing of `parse_timestamp_robust` (`main.py` lines
174-178): a trailing `Z` makes every `Z` be replaced by `+00:00`;
otherwise `+00:00` is appended unless already a suffix. -/
def preprocessTs (cs : List Char) : List Char :=
  if endsWithChars ['Z'] cs then replaceZchar cs
  else if ¬endsWithChars plusUTC cs then cs ++ plusUTC
  else cs

/-- The five-digit-microsecond repair branch of `parse_timestamp_robust`
(`main.py` lines 184-207): split at the first `.`, split the remainder at
the first `+` into microsecond digits and timezone, pad a 5-digit run to 6
(or truncate >6 to 6), reassemble and re-parse. -/
def microRepair (cs : List Char) : IsoResult :=
  if containsChar '.' cs then
    let base := beforeChar '.' cs
    let microPart := afterChar '.' cs
    let mt := if containsChar '+' microPart
      then (beforeChar '+' microPart, '+' :: afterChar '+' microPart)
      else (microPart, plusUTC)
    let micro2 := if mt.1.length = 5 then mt.1 ++ ['0']
      else if 6 < mt.1.length then mt.1.take 6 else mt.1
    fromIso (base ++ '.' :: (micro2 ++ mt.2))
  else .invalidFmt

/-- The final retry of `parse_timestamp_robust` (`main.py` lines 210-219):
strip any fractional/timezone suffix and re-parse with UTC appended. -/
def stripRetry (cs : List Char) : IsoResult :=
  let base := if containsChar '.' cs then beforeChar '.' cs
    else beforeChar 'Z' (beforeChar '+' cs)
  fromIso (base ++ plusUTC)

/-- `parse_timestamp_robust` (`main.py` lines 171-223): preprocess, try a
direct parse; on a `ValueError` whose message reports an invalid isoformat
string — a parse failure, not a constructor range failure — and a `.` in
the (preprocessed) string, try the microsecond repair; then the stripped
retry; and finally fall back to the current instant (`datetime.utcnow()`
with UTC attached). Total by construction — it never raises. -/
def parseTimestampRobust (now : DT) (s : String) : DT × Option ℤ :=
  let pre := preprocessTs s.toList
  match fromIso pre with
  | .ok dt off => (dt, off)
  | e =>
    match (if e = .invalidFmt ∧ containsChar '.' pre = true then microRepair pre
        else .invalidFmt) with
    | .ok dt off => (dt, off)
    | _ =>
      match stripRetry pre with
      | .ok dt off => (dt, off)
      | _ => (now, some 0)

theorem suffix_len_le {l₁ l₂ l : List Char} (h1 : l₁ <:+ l) (h2 : l₂ <:+ l)
    (hle : l₁.length ≤ l₂.length) : l₁ <:+ l₂ := by
  obtain ⟨t1, rfl⟩ := h1
  obtain ⟨t2, ht⟩ := h2
  have hlen := congrArg List.length ht
  simp only [List.length_append] at hlen
  have h21 : t2.length ≤ t1.length := by omega
  have h0 : List.drop t1.length (t1 ++ l₁) = l₁ := List.drop_left t1 l₁
  rw [← ht, List.drop_append_eq_append_drop, List.drop_eq_nil_of_le h21,
    List.nil_append] at h0
  rw [← h0]
  exact List.drop_suffix _ _

theorem isDigit_ne_plus {c : Char} (h : c.isDigit = true) : c ≠ '+' := by
  intro hc
  rw [hc] at h
  exact absurd h (by decide)

theorem afterChar_suffix (c : Char) (l : List Char) : afterChar c l <:+ l :=
  (List.drop_suffix 1 _).trans (List.dropWhile_suffix _)

theorem replaceZchar_append (a b : List Char) :
    replaceZchar (a ++ b) = replaceZchar a ++ replaceZchar b := by
  induction a with
  | nil => rfl
  | cons c rest ih =>
    simp only [List.cons_append, replaceZchar, ih]
    split_ifs <;> simp [ih]

theorem endsWith_suffix {suf l : List Char} (h : endsWithChars suf l = true) :
    suf <:+ l := by
  simp only [endsWithChars, beq_iff_eq] at h
  have h2 := List.take_append_drop (l.length - suf.length) l
  rw [h] at h2
  exact ⟨l.take (l.length - suf.length), h2⟩

theorem preprocess_suffix (cs : List Char) : plusUTC <:+ preprocessTs cs := by
  unfold preprocessTs
  split_ifs with h1 h2
  · obtain ⟨t, rfl⟩ := endsWith_suffix h1
    rw [replaceZchar_append]
    exact ⟨replaceZchar t, rfl⟩
  · exact endsWith_suffix h2
  · exact ⟨cs, rfl⟩

/-- When `c` occurs in `l`, the before/after split reassembles `l`. -/
theorem splitAtChar {c : Char} {l : List Char} (h : containsChar c l = true) :
    l = beforeChar c l ++ c :: afterChar c l := by
  induction l with
  | nil => simp [containsChar] at h
  | cons a l ih =>
    by_cases hac : a = c
    · subst hac
      rw [show beforeChar a (a :: l) = [] from by simp [beforeChar, List.takeWhile_cons],
        show afterChar a (a :: l) = l from by simp [afterChar, List.dropWhile_cons]]
      rfl
    · have hcl : containsChar c l = true := by
        simpa [containsChar, hac] using h
      rw [show beforeChar c (a :: l) = a :: beforeChar c l from by
          simp [beforeChar, List.takeWhile_cons, hac],
        show afterChar c (a :: l) = afterChar c l from by
          simp [afterChar, List.dropWhile_cons, hac]]
      rw [List.cons_append, ← ih hcl]

theorem fracVal_digits {l : List Char} {n : ℕ} (h : fracVal l = some n) :
    ∀ c ∈ l, c.isDigit := by
  unfold fracVal at h
  split_ifs at h with h1 h2
  · exact fun c hc => by simpa using (List.all_eq_true.1 h1.2) c hc
  · exact fun c hc => by simpa using (List.all_eq_true.1 h2.2) c hc

/-- Every character of a string `_parse_hh_mm_ss_ff` accepts is a digit,
`:` or `.` — in particular never `+`. -/
theorem parseHMSF_no_plus {u : List Char} {v : ℕ × ℕ × ℕ × ℕ}
    (h : parseHMSF u = some v) : '+' ∉ u := by
  intro hm
  unfold parseHMSF at h
  split at h
  · next c1 c2 r1 =>
    split_ifs at h with h1
    split at h
    · simp only [List.mem_cons, List.not_mem_nil, or_false] at hm
      rcases hm with hm | hm
      · exact isDigit_ne_plus h1.1 hm.symm
      · exact isDigit_ne_plus h1.2 hm.symm
    · next s1 r2 =>
      split_ifs at h with hs1
      subst hs1
      split at h
      · next d1 d2 r3 =>
        split_ifs at h with h2
        split at h
        · simp only [List.mem_cons, List.not_mem_nil, or_false] at hm
          rcases hm with hm | hm | hm | hm | hm
          · exact isDigit_ne_plus h1.1 hm.symm
          · exact isDigit_ne_plus h1.2 hm.symm
          · exact absurd hm (by decide)
          · exact isDigit_ne_plus h2.1 hm.symm
          · exact isDigit_ne_plus h2.2 hm.symm
        · next s2 r4 =>
          split_ifs at h with hs2
          subst hs2
          split at h
          · next e1 e2 r5 =>
            split_ifs at h with h3
            split at h
            · simp only [List.mem_cons, List.not_mem_nil, or_false] at hm
              rcases hm with hm | hm | hm | hm | hm | hm | hm | hm
              · exact isDigit_ne_plus h1.1 hm.symm
              · exact isDigit_ne_plus h1.2 hm.symm
              · exact absurd hm (by decide)
              · exact isDigit_ne_plus h2.1 hm.symm
              · exact isDigit_ne_plus h2.2 hm.symm
              · exact absurd hm (by decide)
              · exact isDigit_ne_plus h3.1 hm.symm
              · exact isDigit_ne_plus h3.2 hm.symm
            · next s3 frac =>
              split_ifs at h with hs3
              subst hs3
              rcases Option.map_eq_some'.1 h with ⟨us, hus, hv⟩
              have hdig := fracVal_digits hus
              simp only [List.mem_cons] at hm
              rcases hm with hm | hm | hm | hm | hm | hm | hm | hm | hm | hm
              · exact isDigit_ne_plus h1.1 hm.symm
              · exact isDigit_ne_plus h1.2 hm.symm
              · exact absurd hm (by decide)
              · exact isDigit_ne_plus h2.1 hm.symm
              · exact isDigit_ne_plus h2.2 hm.symm
              · exact absurd hm (by decide)
              · exact isDigit_ne_plus h3.1 hm.symm
              · exact isDigit_ne_plus h3.2 hm.symm
              · exact absurd hm (by decide)
              · exact isDigit_ne_plus (hdig '+' hm) rfl
          · exact Option.noConfusion h
      · exact Option.noConfusion h
  · exact Option.noConfusion h

/-- On a time slice drawn from a string that ends in `'+00:00'`, the
timezone-bearing path can only produce the UTC offset: the text after the
sign is a suffix of the whole string, so at the only admitted lengths it
is either exactly `00:00` (all zero, hence UTC) or at least six
characters long and hence contains the final `'+'`, which no
`_parse_hh_mm_ss_ff` input may contain. -/
theorem parseIsoTimeCore_utc {cs t : List Char} (hcs : plusUTC <:+ cs) (ht : t <:+ cs)
    (s : Char) {v : ℕ × ℕ × ℕ × ℕ × Option ℤ}
    (h : parseIsoTimeCore s t = some v) : v.2.2.2.2 = some 0 := by
  have htz : afterChar s t <:+ cs := (afterChar_suffix s t).trans ht
  have hp6 : plusUTC.length = 6 := rfl
  unfold parseIsoTimeCore at h
  split at h
  · exact Option.noConfusion h
  · next c hc =>
    by_cases hlen : (afterChar s t).length = 5 ∨ (afterChar s t).length = 8 ∨
        (afterChar s t).length = 15
    swap
    · rw [if_neg hlen] at h
      exact Option.noConfusion h
    rw [if_pos hlen] at h
    split at h
    · exact Option.noConfusion h
    · next z hz =>
      rcases hlen with h5 | h8 | h15
      · have h1 : afterChar s t <:+ plusUTC := suffix_len_le htz hcs (by omega)
        have h2 : (['0', '0', ':', '0', '0'] : List Char) <:+ plusUTC := ⟨['+'], rfl⟩
        have h3 : afterChar s t = (['0', '0', ':', '0', '0'] : List Char) :=
          (suffix_len_le h1 h2 (by rw [h5]; rfl)).eq_of_length (by rw [h5]; rfl)
        rw [h3] at hz
        have hz0 : z = (0, 0, 0, 0) :=
          (Option.some.inj ((show parseHMSF (['0', '0', ':', '0', '0'] : List Char) =
            some (0, 0, 0, 0) from rfl) ▸ hz)).symm
        subst hz0
        rw [if_pos ⟨rfl, rfl, rfl, rfl⟩] at h
        injection h with h
        rw [← h]
      · have h1 : plusUTC <:+ afterChar s t := suffix_len_le hcs htz (by omega)
        exact absurd (h1.subset (by decide : '+' ∈ plusUTC)) (parseHMSF_no_plus hz)
      · have h1 : plusUTC <:+ afterChar s t := suffix_len_le hcs htz (by omega)
        exact absurd (h1.subset (by decide : '+' ∈ plusUTC)) (parseHMSF_no_plus hz)

/-- A time slice drawn from a string ending in `'+00:00'` parses either as
naive or with the UTC offset. -/
theorem parseIsoTime_utc {cs t : List Char} (hcs : plusUTC <:+ cs) (ht : t <:+ cs)
    {v : ℕ × ℕ × ℕ × ℕ × Option ℤ} (h : parseIsoTime t = some v) :
    v.2.2.2.2 = none ∨ v.2.2.2.2 = some 0 := by
  unfold parseIsoTime at h
  split_ifs at h with h1 h2 h3
  · exact Or.inr (parseIsoTimeCore_utc hcs ht '-' h)
  · exact Or.inr (parseIsoTimeCore_utc hcs ht '+' h)
  · rcases Option.map_eq_some'.1 h with ⟨c, hc, hv⟩
    rw [← hv]
    exact Or.inl rfl

/-- A `fromisoformat` parse of a string ending in `'+00:00'` yields a
naive result or the UTC offset — never a nonzero offset. -/
theorem fromIso_utc {cs : List Char} (hcs : plusUTC <:+ cs) {dt : DT} {off : Option ℤ}
    (h : fromIso cs = .ok dt off) : off = none ∨ off = some 0 := by
  unfold fromIso at h
  split at h
  · exact IsoResult.noConfusion h
  · next y mo d =>
    split at h
    · split_ifs at h
      injection h with h1 h2
      exact Or.inl h2.symm
    · next c t' hdrop =>
      split at h
      · exact IsoResult.noConfusion h
      · next hh mi ss us off' htime =>
        have hsub : (c :: t') <:+ cs := hdrop ▸ List.drop_suffix 11 cs
        have hoff := parseIsoTime_utc hcs hsub htime
        split_ifs at h
        injection h with h1 h2
        rw [← h2]
        exact hoff

/-- The microsecond-repair branch of a string ending in `'+00:00'` also
reassembles a string ending in `'+00:00'`, so it can only yield a naive
result or the UTC offset. -/
theorem microRepair_utc {cs : List Char} (hs : plusUTC <:+ cs) {dt : DT}
    {off : Option ℤ} (h : microRepair cs = .ok dt off) : off = none ∨ off = some 0 := by
  have hp6 : plusUTC.length = 6 := rfl
  simp only [microRepair] at h
  by_cases hdot : containsChar '.' cs = true
  · rw [if_pos hdot] at h
    by_cases hplus : containsChar '+' (afterChar '.' cs) = true
    · rw [if_pos hplus] at h
      dsimp only at h
      generalize hm2 : (if (beforeChar '+' (afterChar '.' cs)).length = 5
          then beforeChar '+' (afterChar '.' cs) ++ ['0']
          else if 6 < (beforeChar '+' (afterChar '.' cs)).length
          then (beforeChar '+' (afterChar '.' cs)).take 6
          else beforeChar '+' (afterChar '.' cs)) = micro2 at h
      set X := afterChar '+' (afterChar '.' cs) with hX
      set base := beforeChar '.' cs with hbase
      have hpX : ('+' :: X) <:+ cs := by
        refine List.IsSuffix.trans ?_ (afterChar_suffix '.' cs)
        exact ⟨beforeChar '+' (afterChar '.' cs), (splitAtChar hplus).symm⟩
      rcases le_or_lt X.length 4 with h4 | h5
      · exfalso
        have h1 : ('+' :: X) <:+ plusUTC := suffix_len_le hpX hs (by
          simp only [List.length_cons]
          omega)
        have h2 : (['0', '0', ':', '0', '0'] : List Char) <:+ plusUTC := ⟨['+'], rfl⟩
        have h3 : ('+' :: X) <:+ (['0', '0', ':', '0', '0'] : List Char) :=
          suffix_len_le h1 h2 (by
            simp only [List.length_cons]
            omega)
        exact absurd (h3.subset (List.mem_cons_self '+' X)) (by decide)
      · have h5' : 5 ≤ X.length := h5
        rcases eq_or_lt_of_le h5' with h5e | h6
        · have h1 : ('+' :: X) <:+ plusUTC := suffix_len_le hpX hs (by
            simp only [List.length_cons]
            omega)
          have heq : ('+' :: X) = plusUTC := h1.eq_of_length (by
            simp only [List.length_cons]
            omega)
          exact fromIso_utc ⟨base ++ '.' :: micro2, by rw [← heq]; simp⟩ h
        · have hXs : X <:+ cs := (afterChar_suffix '+' _).trans (afterChar_suffix '.' cs)
          have h1 : plusUTC <:+ X := suffix_len_le hs hXs (by omega)
          obtain ⟨w, hw⟩ := h1
          rw [← hw] at h
          exact fromIso_utc ⟨base ++ '.' :: (micro2 ++ '+' :: w), by simp⟩ h
    · rw [if_neg hplus] at h
      dsimp only at h
      refine fromIso_utc ⟨beforeChar '.' cs ++ '.' ::
        (if (afterChar '.' cs).length = 5 then afterChar '.' cs ++ ['0']
          else if 6 < (afterChar '.' cs).length then (afterChar '.' cs).take 6
          else afterChar '.' cs), ?_⟩ h
      simp
  · rw [if_neg hdot] at h
    exact IsoResult.noConfusion h

/-- The stripped retry parses a string it itself terminates with
`'+00:00'`, so it can only yield a naive result or the UTC offset. -/
theorem stripRetry_utc {cs : List Char} {dt : DT} {off : Option ℤ}
    (h : stripRetry cs = .ok dt off) : off = none ∨ off = some 0 := by
  simp only [stripRetry] at h
  exact fromIso_utc ⟨_, rfl⟩ h

/-- C8 counterexample: the date-only input "2024-01-01" is preprocessed to
"2024-01-01+00:00", which pre-3.11 `fromisoformat` accepts by reading the
date from the first ten characters, skipping position 10 (the `'+'`), and
parsing the remaining "00:00" as a time with NO offset — so
`parse_timestamp_robust` returns a naive instant, refuting the claim that
every input yields an instant with an explicit UTC offset. -/
theorem c8_timestamp_normalizer_counterexample :
    parseTimestampRobust (DT.mk 2025 6 15 12 0 0 0) "2024-01-01" =
      (DT.mk 2024 1 1 0 0 0 0, none) ∧
    ¬ (∀ (now : DT) (s : String), (parseTimestampRobust now s).2 = some 0) := by
  have hval : parseTimestampRobust (DT.mk 2025 6 15 12 0 0 0) "2024-01-01" =
      (DT.mk 2024 1 1 0 0 0 0, none) := rfl
  refine ⟨hval, fun hall => ?_⟩
  have h2 := hall (DT.mk 2025 6 15 12 0 0 0) "2024-01-01"
  rw [hval] at h2
  exact Option.noConfusion h2

/-- C8 (amended): `parse_timestamp_robust` never raises, but it does not
always return an instant with an explicit UTC offset: (1) every offset it
does return is exactly UTC, yet the offset may be absent — pre-3.11
`fromisoformat` never examines the separator position and accepts missing
time components, so inputs like a bare date parse to naive instants;
(2) the result does not depend on the current instant except in the final
fallback, reached only when the direct parse, the microsecond repair
(attempted just when a parse error — not a range error — was reported on
a string containing a dot), and the stripped retry have all failed, in
which case the current instant is returned with UTC attached; (3) the two
spec examples: `"2024-01-01T10:00:00.12345Z"` (5-digit fraction) parses
to the same instant as `"2024-01-01T10:00:00.123450+00:00"`, namely
2024-01-01 10:00:00.123450 UTC, and `"2024-01-01T10:00:00Z"` parses
without error to 2024-01-01 10:00:00 UTC. -/
theorem c8_timestamp_normalizer :
    (∀ (now : DT) (s : String), (parseTimestampRobust now s).2 = some 0 ∨
      (parseTimestampRobust now s).2 = none) ∧
    (∀ (now now' : DT) (s : String),
        parseTimestampRobust now s = parseTimestampRobust now' s ∨
        ((∀ dt off, fromIso (preprocessTs s.toList) ≠ .ok dt off) ∧
         (∀ dt off, (if fromIso (preprocessTs s.toList) = .invalidFmt ∧
              containsChar '.' (preprocessTs s.toList) = true
            then microRepair (preprocessTs s.toList) else .invalidFmt) ≠ .ok dt off) ∧
         (∀ dt off, stripRetry (preprocessTs s.toList) ≠ .ok dt off) ∧
         parseTimestampRobust now s = (now, some 0) ∧
         parseTimestampRobust now' s = (now', some 0))) ∧
    (∀ now : DT,
        parseTimestampRobust now "2024-01-01T10:00:00.12345Z" =
          parseTimestampRobust now "2024-01-01T10:00:00.123450+00:00" ∧
        parseTimestampRobust now "2024-01-01T10:00:00.12345Z" =
          (DT.mk 2024 1 1 10 0 0 123450, some 0) ∧
        parseTimestampRobust now "2024-01-01T10:00:00Z" =
          (DT.mk 2024 1 1 10 0 0 0, some 0)) := by
  refine ⟨?_, ?_, fun now => ⟨rfl, rfl, rfl⟩⟩
  · intro now s
    have hpre := preprocess_suffix s.toList
    simp only [parseTimestampRobust]
    split
    · next dt off heq =>
      rcases fromIso_utc hpre heq with hn | h0
      · exact Or.inr hn
      · exact Or.inl h0
    all_goals (
      split
      · next dt off heq2 =>
        split_ifs at heq2
        rcases microRepair_utc hpre heq2 with hn | h0
        · exact Or.inr hn
        · exact Or.inl h0
      all_goals (
        split
        · next dt off heq3 =>
          rcases stripRetry_utc heq3 with hn | h0
          · exact Or.inr hn
          · exact Or.inl h0
        all_goals exact Or.inl rfl))
  · intro now now' s
    cases hf : fromIso (preprocessTs s.toList) with
    | ok dt off =>
      have hf2 : fromIso (preprocessTs s.data) = .ok dt off := hf
      exact Or.inl (by simp [parseTimestampRobust, hf2])
    | invalidFmt =>
      have hf2 : fromIso (preprocessTs s.data) = .invalidFmt := hf
      by_cases hdotc : containsChar '.' (preprocessTs s.toList) = true
      · have hdotc2 : containsChar '.' (preprocessTs s.data) = true := hdotc
        cases hm : microRepair (preprocessTs s.toList) with
        | ok dt off =>
          have hm2 : microRepair (preprocessTs s.data) = .ok dt off := hm
          exact Or.inl (by simp [parseTimestampRobust, hf2, hm2, hdotc2])
        | invalidFmt =>
          have hm2 : microRepair (preprocessTs s.data) = .invalidFmt := hm
          cases hst : stripRetry (preprocessTs s.toList) with
          | ok dt off =>
            have hst2 : stripRetry (preprocessTs s.data) = .ok dt off := hst
            exact Or.inl (by simp [parseTimestampRobust, hf2, hm2, hdotc2, hst2])
          | invalidFmt =>
            have hst2 : stripRetry (preprocessTs s.data) = .invalidFmt := hst
            refine Or.inr ⟨fun dt off hcon => IsoResult.noConfusion hcon,
              fun dt off hcon => ?_, fun dt off hcon => IsoResult.noConfusion hcon,
              by simp [parseTimestampRobust, hf2, hm2, hdotc2, hst2],
              by simp [parseTimestampRobust, hf2, hm2, hdotc2, hst2]⟩
            rw [if_pos ⟨rfl, hdotc⟩] at hcon
            exact IsoResult.noConfusion hcon
          | rangeErr =>
            have hst2 : stripRetry (preprocessTs s.data) = .rangeErr := hst
            refine Or.inr ⟨fun dt off hcon => IsoResult.noConfusion hcon,
              fun dt off hcon => ?_, fun dt off hcon => IsoResult.noConfusion hcon,
              by simp [parseTimestampRobust, hf2, hm2, hdotc2, hst2],
              by simp [parseTimestampRobust, hf2, hm2, hdotc2, hst2]⟩
            rw [if_pos ⟨rfl, hdotc⟩] at hcon
            exact IsoResult.noConfusion hcon
        | rangeErr =>
          have hm2 : microRepair (preprocessTs s.data) = .rangeErr := hm
          cases hst : stripRetry (preprocessTs s.toList) with
          | ok dt off =>
            have hst2 : stripRetry (preprocessTs s.data) = .ok dt off := hst
            exact Or.inl (by simp [parseTimestampRobust, hf2, hm2, hdotc2, hst2])
          | invalidFmt =>
            have hst2 : stripRetry (preprocessTs s.data) = .invalidFmt := hst
            refine Or.inr ⟨fun dt off hcon => IsoResult.noConfusion hcon,
              fun dt off hcon => ?_, fun dt off hcon => IsoResult.noConfusion hcon,
              by simp [parseTimestampRobust, hf2, hm2, hdotc2, hst2],
              by simp [parseTimestampRobust, hf2, hm2, hdotc2, hst2]⟩
            rw [if_pos ⟨rfl, hdotc⟩] at hcon
            exact IsoResult.noConfusion hcon
          | rangeErr =>
            have hst2 : stripRetry (preprocessTs s.data) = .rangeErr := hst
            refine Or.inr ⟨fun dt off hcon => IsoResult.noConfusion hcon,
              fun dt off hcon => ?_, fun dt off hcon => IsoResult.noConfusion hcon,
              by simp [parseTimestampRobust, hf2, hm2, hdotc2, hst2],
              by simp [parseTimestampRobust, hf2, hm2, hdotc2, hst2]⟩
            rw [if_pos ⟨rfl, hdotc⟩] at hcon
            exact IsoResult.noConfusion hcon
      · have hdotc2 : containsChar '.' (preprocessTs s.data) = false := by
          simpa using hdotc
        cases hst : stripRetry (preprocessTs s.toList) with
        | ok dt off =>
          have hst2 : stripRetry (preprocessTs s.data) = .ok dt off := hst
          exact Or.inl (by simp [parseTimestampRobust, hf2, hdotc2, hst2])
        | invalidFmt =>
          have hst2 : stripRetry (preprocessTs s.data) = .invalidFmt := hst
          refine Or.inr ⟨fun dt off hcon => IsoResult.noConfusion hcon,
            fun dt off hcon => ?_, fun dt off hcon => IsoResult.noConfusion hcon,
            by simp [parseTimestampRobust, hf2, hdotc2, hst2],
            by simp [parseTimestampRobust, hf2, hdotc2, hst2]⟩
          rw [if_neg (fun hc => hdotc hc.2)] at hcon
          exact IsoResult.noConfusion hcon
        | rangeErr =>
          have hst2 : stripRetry (preprocessTs s.data) = .rangeErr := hst
          refine Or.inr ⟨fun dt off hcon => IsoResult.noConfusion hcon,
            fun dt off hcon => ?_, fun dt off hcon => IsoResult.noConfusion hcon,
            by simp [parseTimestampRobust, hf2, hdotc2, hst2],
            by simp [parseTimestampRobust, hf2, hdotc2, hst2]⟩
          rw [if_neg (fun hc => hdotc hc.2)] at hcon
          exact IsoResult.noConfusion hcon
    | rangeErr =>
      have hf2 : fromIso (preprocessTs s.data) = .rangeErr := hf
      cases hst : stripRetry (preprocessTs s.toList) with
      | ok dt off =>
        have hst2 : stripRetry (preprocessTs s.data) = .ok dt off := hst
        exact Or.inl (by simp [parseTimestampRobust, hf2, hst2])
      | invalidFmt =>
        have hst2 : stripRetry (preprocessTs s.data) = .invalidFmt := hst
        refine Or.inr ⟨fun dt off hcon => IsoResult.noConfusion hcon,
          fun dt off hcon => ?_, fun dt off hcon => IsoResult.noConfusion hcon,
          by simp [parseTimestampRobust, hf2, hst2],
          by simp [parseTimestampRobust, hf2, hst2]⟩
        rw [if_neg (fun hc => IsoResult.noConfusion hc.1)] at hcon
        exact IsoResult.noConfusion hcon
      | rangeErr =>
        have hst2 : stripRetry (preprocessTs s.data) = .rangeErr := hst
        refine Or.inr ⟨fun dt off hcon => IsoResult.noConfusion hcon,
          fun dt off hcon => ?_, fun dt off hcon => IsoResult.noConfusion hcon,
          by simp [parseTimestampRobust, hf2, hst2],
          by simp [parseTimestampRobust, hf2, hst2]⟩
        rw [if_neg (fun hc => IsoResult.noConfusion hc.1)] at hcon
        exact IsoResult.noConfusion hcon

/-- Witness for the amended C8: the UTC-offset disjunct is realized at the
well-formed `Z` example and the fallback disjunct at an unparseable
string. -/
theorem c8_timestamp_normalizer_witness :
    (parseTimestampRobust (DT.mk 2025 6 15 12 0 0 0) "2024-01-01T10:00:00Z").2 = some 0 ∧
    parseTimestampRobust (DT.mk 2025 6 15 12 0 0 0) "garbage" =
      (DT.mk 2025 6 15 12 0 0 0, some 0) := by
  constructor
  · rcases c8_timestamp_normalizer.1 (DT.mk 2025 6 15 12 0 0 0)
      "2024-01-01T10:00:00Z" with h | h
    · exact h
    · exact absurd h (by decide)
  · rcases c8_timestamp_normalizer.2.1 (DT.mk 2025 6 15 12 0 0 0)
      (DT.mk 2000 1 1 0 0 0 0) "garbage" with h | h
    · exact absurd h (by decide)
    · exact h.2.2.2.1

end PizzaApi
